import Mathlib

/-!
Verification development for the tele-fin-news-bot signal-aggregation
pipeline: a shallow embedding of the authority scorer (scorer.py), the
embedding fallback chain and DBSCAN cluster aggregation (clusterer.py),
the summarization fallback chain (summarizer.py), ticker parsing
(stock_fetcher.py) and the signal store operations (database.py),
together with theorems about the embedded definitions.

Python strings are modelled as lists of characters (`Str`), so that every
string operation is structurally recursive and computable.  Python floats
are modelled as exact rationals; `math.log` (whose concrete values no
claim depends on) is a function parameter of the scoring definitions.
Randomly generated cluster ids (`uuid.uuid4()`) are modelled by a
deterministic fresh token per cluster key; no theorem concerns their
randomness.  DBSCAN itself (an external library call) is modelled by its
output: a list of integer labels, `-1` marking noise.
-/

namespace Tmsa

/-! ### String model -/

abbrev Str := List Char

/-- Does `s` start with `p`?  Model of Python `str.startswith`. -/
def strStarts : Str → Str → Bool
  | _, [] => true
  | [], _ :: _ => false
  | c :: s, d :: p => c == d && strStarts s p

/-- Does `s` contain `sub` as a contiguous substring?  Model of Python
`sub in s`. -/
def strContainsL : Str → Str → Bool
  | [], sub => sub.isEmpty
  | s@(_ :: t), sub => strStarts s sub || strContainsL t sub

/-- Model of Python `str.strip()`: drop whitespace from both ends. -/
def strTrim (s : Str) : Str :=
  ((s.dropWhile Char.isWhitespace).reverse.dropWhile Char.isWhitespace).reverse

/-- Model of Python `str.lower()` (ASCII case folding; the inputs the
claims exercise contain no cased non-ASCII letters). -/
def strLower (s : Str) : Str := s.map Char.toLower

/-- Model of Python `str.rstrip(".")`: drop all trailing periods. -/
def rstripDot (s : Str) : Str := (s.reverse.dropWhile (fun c => c == '.')).reverse

/-- Accumulator-passing worker for `splitOnC`. -/
def splitAux (sep : Char) : Str → Str → List Str
  | [], cur => [cur.reverse]
  | c :: rest, cur =>
    if c == sep then cur.reverse :: splitAux sep rest []
    else splitAux sep rest (c :: cur)

/-- Model of Python `str.split(sep)` for a one-character separator. -/
def splitOnC (sep : Char) (s : Str) : List Str := splitAux sep s []

/-- Join a list of lines with a newline, the model of `"\n".join(...)`. -/
def joinNL : List Str → Str
  | [] => []
  | [l] => l
  | l :: ls => l ++ '\n' :: joinNL ls

/-! ### scorer.py -/

/-- Rounding to six decimal places, the model of `round(total, 6)` applied
to the exact rational value of the sum. -/
def round6 (x : ℚ) : ℚ := ((round (x * 1000000) : ℤ) : ℚ) / 1000000

/-- One summand of the authority formula: `w1*log(S_c) + w2*(V_c_L/S_c)`. -/
def authTerm (logf : ℚ → ℚ) (w1 w2 : ℚ) (S V : ℤ) : ℚ :=
  w1 * logf (S : ℚ) + w2 * ((V : ℚ) / (S : ℚ))

/-- The accumulation loop inside `compute_authority`.  `math.log(S_c)`
raises `ValueError: math domain error` for `S_c ≤ 0`, so the loop is
fallible exactly there. -/
def authLoop (logf : ℚ → ℚ) (w1 w2 : ℚ) : ℚ → List (ℤ × ℤ) → Except Str ℚ
  | total, [] => .ok total
  | total, (S, V) :: rest =>
    if S ≤ 0 then .error "math domain error".toList
    else authLoop logf w1 w2 (total + authTerm logf w1 w2 S V) rest

/-- scorer.compute_authority: sum `w1*log(S_c) + w2*(V_c_L/S_c)` over the
channel data pairs and round the total to six decimals. -/
def compute_authority (logf : ℚ → ℚ) (w1 w2 : ℚ)
    (channel_data : List (ℤ × ℤ)) : Except Str ℚ :=
  (authLoop logf w1 w2 0 channel_data).map round6

/-- The sum of all summands of `compute_authority` (specification-side
value of the loop). -/
def sumTerms (logf : ℚ → ℚ) (w1 w2 : ℚ) (l : List (ℤ × ℤ)) : ℚ :=
  (l.map (fun p => authTerm logf w1 w2 p.1 p.2)).sum

/-- One joined row of `_fetch_link_channel_data`: a raw
`(subscriber_count, views)` source tuple, `views` nullable. -/
structure RawRow where
  url_hash : Str
  subscriber_count : ℤ
  views : Option ℤ

/-- The row transformation of `_fetch_link_channel_data`:
`sub_count = max(row["subscriber_count"], 1)` and
`views = row["views"] or 0`. -/
def fetch_pair (r : RawRow) : ℤ × ℤ :=
  (max r.subscriber_count 1, r.views.getD 0)

/-- Specification-side transformation: replace each `audience_size ≤ 0`
by `1`, default absent engagement to `0` (the spec's wording, to be
compared with `fetch_pair`). -/
def spec_floor_pair (r : RawRow) : ℤ × ℤ :=
  (if r.subscriber_count ≤ 0 then 1 else r.subscriber_count, r.views.getD 0)

/-! ### clusterer.py: embedding fallback chain -/

/-- Outcome of one backend attempt inside `_embed_texts`: the returned
vectors, a `google.genai` `ClientError` carrying its message string, or
any other exception. -/
inductive EmbedAttempt where
  | success (vecs : List (List ℚ))
  | clientError (msg : Str)
  | exception

/-- The message of the `RuntimeError` raised when the chain is
exhausted. -/
def embed_fail_msg : Str := "모든 임베딩 모델 실패 — 클러스터링 불가".toList

/-- `err.startswith("401") or err.startswith("403")`. -/
def is_auth_err (msg : Str) : Bool :=
  strStarts msg "401".toList || strStarts msg "403".toList

/-- `"429" in err or "RESOURCE_EXHAUSTED" in err`. -/
def is_quota_err (msg : Str) : Bool :=
  strContainsL msg "429".toList || strContainsL msg "RESOURCE_EXHAUSTED".toList

/-- clusterer._embed_texts: walk the configured backend chain (each
backend given with its model name and the outcome its call would have).
A `ClientError` starting with 401/403 breaks out of the loop (reaching
the final `raise`); any other `ClientError` (429/quota or unrecognized)
falls through to the next backend; a non-`ClientError` exception breaks
only when the backend is local (name not starting with "gemini").
An empty remaining chain raises the fatal exhaustion error. -/
def _embed_texts : List (Str × EmbedAttempt) → Except Str (List (List ℚ))
  | [] => .error embed_fail_msg
  | (model, att) :: rest =>
    match att with
    | .success v => .ok v
    | .clientError msg =>
      if is_auth_err msg then .error embed_fail_msg
      else _embed_texts rest
    | .exception =>
      if strStarts model "gemini".toList then _embed_texts rest
      else .error embed_fail_msg

/-! ### database.py rows and signal-store operations -/

/-- A row of the `signals` table. -/
structure SignalRow where
  cluster_id : Str
  representative_title : Str
  summary_text : Str
  total_authority_score : ℚ
  generated_at : Str

/-- A row of the `links` table. -/
structure LinkRow where
  url_hash : Str
  original_url : Str
  title : Option Str
  description : Option Str
  authority_score : Option ℚ
  cluster_id : Option Str

/-- The part of the store the clusterer run touches. -/
structure DBState where
  signals : List SignalRow
  links : List LinkRow

/-- database.clear_signals: `DELETE FROM signals` then
`UPDATE links SET cluster_id = NULL`. -/
def clear_signals (st : DBState) : DBState :=
  { signals := [],
    links := st.links.map fun l => { l with cluster_id := none } }

/-- database.assign_link_to_cluster: set `cluster_id` on the link whose
`url_hash` matches. -/
def assign_link_to_cluster (st : DBState) (h : Str) (cid : Str) : DBState :=
  { st with links := st.links.map fun l =>
      if l.url_hash == h then { l with cluster_id := some cid } else l }

/-- database.get_top_links_by_score: count all links, set the limit to
`max(1, int(total * top_percent / 100))`, then return the links with a
non-null non-empty title ordered by `authority_score` descending,
truncated to the limit.  SQL `NULL` orders below every number, modelled
by `WithBot ℚ`. -/
def sqlKey (l : LinkRow) : WithBot ℚ :=
  match l.authority_score with
  | none => ⊥
  | some q => (q : WithBot ℚ)

/-- Descending comparison on `sqlKey`, the `ORDER BY authority_score
DESC` ordering. -/
def linkGE (a b : LinkRow) : Bool := decide (sqlKey b ≤ sqlKey a)

/-- The `WHERE title IS NOT NULL AND title != ''` predicate. -/
def titled (l : LinkRow) : Bool :=
  match l.title with
  | none => false
  | some t => !t.isEmpty

def get_top_links_by_score (links : List LinkRow) (top_percent : ℕ) : List LinkRow :=
  ((links.filter titled).mergeSort linkGE).take
    (max 1 (links.length * top_percent / 100))

/-! ### clusterer.py: cluster aggregation -/

/-- A row of `get_posts_for_clustering` (posts in the recent window, with
their score and the `|`-joined hashes of their attached links). -/
structure PostRow where
  post_id : Str
  channel_id : Str
  content : Str
  views : Option ℚ
  authority_score : Option ℚ
  url_hashes_raw : Option Str

/-- The clusterer's `Cluster` dataclass. -/
structure Cluster where
  cluster_id : Str
  url_hashes : List Str := []
  titles : List Str := []
  descriptions : List Str := []
  post_texts : List Str := []
  post_ids : List Str := []
  channel_ids : List Str := []
  total_authority_score : ℚ := 0

/-- A fresh cluster for a DBSCAN label key (deterministic stand-in for
`uuid.uuid4()`). -/
def mkCluster (key : Int) : Cluster :=
  { cluster_id := ("cluster-" ++ toString key).toList }

/-- `if h and h not in cluster.url_hashes: append(h)` over the split of
`url_hashes_raw` on `|`, guarded by the truthiness of the raw value. -/
def addRawHashes (hs : List Str) (raw : Option Str) : List Str :=
  match raw with
  | none => hs
  | some s =>
    if s.isEmpty then hs
    else (splitOnC '|' s).foldl
      (fun acc h => if !h.isEmpty && !(acc.contains h) then acc ++ [h] else acc) hs

/-- The loop body of `run_unified_clustering` for one non-noise post. -/
def addPost (c : Cluster) (r : PostRow) : Cluster :=
  { c with
    post_texts := c.post_texts ++ [r.content],
    post_ids := c.post_ids ++ [r.post_id],
    channel_ids := c.channel_ids ++ [r.channel_id],
    total_authority_score := c.total_authority_score + r.authority_score.getD 0,
    url_hashes := addRawHashes c.url_hashes r.url_hashes_raw }

/-- The loop body of `run_clustering` (link mode) for one link:
`link["title"] or ""`, `link["description"] or ""`,
`link["authority_score"] or 0.0`. -/
def addLink (c : Cluster) (l : LinkRow) : Cluster :=
  { c with
    url_hashes := c.url_hashes ++ [l.url_hash],
    titles := c.titles ++ [l.title.getD []],
    descriptions := c.descriptions ++ [l.description.getD []],
    total_authority_score := c.total_authority_score + l.authority_score.getD 0 }

/-- Insert one item into the `cluster_map` association list under `key`,
matching the Python dict's insertion-order semantics: update in place if
the key exists, else append a fresh cluster at the end. -/
def updateMap (add : Cluster → α → Cluster) :
    List (Int × Cluster) → Int → α → List (Int × Cluster)
  | [], key, x => [(key, add (mkCluster key) x)]
  | (k, c) :: rest, key, x =>
    if k = key then (k, add c x) :: rest
    else (k, c) :: updateMap add rest key x

/-- Per-mode key policy for an item at index `i` with DBSCAN label `lab`:
`none` means the item is skipped. -/
def unifiedKey (_ : ℕ) (lab : Int) : Option Int :=
  if lab = -1 then none else some lab

/-- Link mode: `effective_label = label if label != -1 else -(idx + 1000)`. -/
def linkKey (i : ℕ) (lab : Int) : Option Int :=
  some (if lab = -1 then -((i : Int) + 1000) else lab)

/-- The aggregation loop over `zip(items, labels)` building `cluster_map`. -/
def buildMap (add : Cluster → α → Cluster) (keyOf : ℕ → Int → Option Int) :
    ℕ → List (α × Int) → List (Int × Cluster) → List (Int × Cluster)
  | _, [], m => m
  | i, (x, lab) :: rest, m =>
    match keyOf i lab with
    | none => buildMap add keyOf (i + 1) rest m
    | some k => buildMap add keyOf (i + 1) rest (updateMap add m k x)

/-- The sublist of items the loop assigns to cluster key `k`, indices
starting at `i` (specification-side description of cluster membership). -/
def assigned (keyOf : ℕ → Int → Option Int) : ℕ → List (α × Int) → Int → List α
  | _, [], _ => []
  | i, (x, lab) :: rest, k =>
    (if keyOf i lab = some k then [x] else []) ++ assigned keyOf (i + 1) rest k

/-- First-match association lookup. -/
def lookupKey : List (Int × Cluster) → Int → Option Cluster
  | [], _ => none
  | (k, c) :: rest, key => if k = key then some c else lookupKey rest key

/-- Descending comparison on `total_authority_score`, the
`sorted(..., key=..., reverse=True)` ordering. -/
def clusterGE (a b : Cluster) : Bool :=
  decide (b.total_authority_score ≤ a.total_authority_score)

/-- The pure core of `run_unified_clustering`: aggregate non-noise posts
by label, sort by aggregate score descending, keep the top `top_n`. -/
def clusterPosts (rows : List PostRow) (labels : List Int) (top_n : ℕ) : List Cluster :=
  (((buildMap addPost unifiedKey 0 (rows.zip labels) []).map Prod.snd).mergeSort
    clusterGE).take top_n

/-- The pure core of `run_clustering` (link mode): aggregate links by
effective label (noise items get their own key), sort descending, keep
the top `top_n`. -/
def clusterLinks (links : List LinkRow) (labels : List Int) (top_n : ℕ) : List Cluster :=
  (((buildMap addLink linkKey 0 (links.zip labels) []).map Prod.snd).mergeSort
    clusterGE).take top_n

/-- Fill `titles`/`descriptions` of a retained cluster from the links
table (the `get_links_metadata` lookup: `meta[h]["title"] or ""`). -/
def fillMeta (st : DBState) (c : Cluster) : Cluster :=
  { c with
    titles := c.url_hashes.filterMap fun h =>
      (st.links.find? (fun l => l.url_hash == h)).map fun l => l.title.getD [],
    descriptions := c.url_hashes.filterMap fun h =>
      (st.links.find? (fun l => l.url_hash == h)).map fun l => l.description.getD [] }

/-- clusterer.run_unified_clustering as a state transformer: clear the
signal store first, return early on no posts, abort (propagating the
exception) when the embedding chain is exhausted, otherwise aggregate,
truncate, fill metadata and write the link→cluster assignments.  The
embedding outcome is supplied through the per-backend attempt list, the
DBSCAN output through `labels`. -/
def run_unified_clustering (st : DBState) (rows : List PostRow)
    (backends : List (Str × EmbedAttempt)) (labels : List Int) (top_n : ℕ) :
    DBState × Except Str (List Cluster) :=
  let st1 := clear_signals st
  if rows.isEmpty then (st1, .ok [])
  else
    match _embed_texts backends with
    | .error e => (st1, .error e)
    | .ok _ =>
      let clusters := (clusterPosts rows labels top_n).map (fillMeta st1)
      let st2 := clusters.foldl
        (fun s c => c.url_hashes.foldl
          (fun s2 h => assign_link_to_cluster s2 h c.cluster_id) s) st1
      (st2, .ok clusters)

/-! ### summarizer.py -/

/-- Strip one `제목:`/`요약:`/`종목:` marker (three characters) and trim. -/
def stripHdr (l : Str) : Str := strTrim (l.drop 3)

/-- Is the line one of the three labelled fields? -/
def isHdr (l : Str) : Bool :=
  strStarts l "제목:".toList || strStarts l "요약:".toList || strStarts l "종목:".toList

/-- The line loop of `_parse_response`: later labelled lines overwrite
earlier ones. -/
def parseLoop : List Str → Str × Str × Str → Str × Str × Str
  | [], acc => acc
  | l :: rest, (t, s, k) =>
    parseLoop rest
      (if strStarts l "제목:".toList then (stripHdr l, s, k)
       else if strStarts l "요약:".toList then (t, stripHdr l, k)
       else if strStarts l "종목:".toList then (t, s, stripHdr l)
       else (t, s, k))

/-- summarizer._parse_response: extract the three labelled fields; when
the summary field is empty, synthesize it from the unlabelled non-empty
lines truncated to 500 characters; an empty title defaults to the
constant `시그널`. -/
def _parse_response (text : Str) : Str × Str × Str :=
  let lines := (splitOnC '\n' (strTrim text)).map strTrim
  let parsed := parseLoop lines ([], [], [])
  let summary :=
    if parsed.2.1.isEmpty then
      (joinNL (lines.filter fun l => !l.isEmpty && !(isHdr l))).take 500
    else parsed.2.1
  (if parsed.1.isEmpty then "시그널".toList else parsed.1, summary, parsed.2.2)

/-- Outcome of one `_call_model` attempt inside `summarize_cluster`:
success with the raw response text, a `ClientError` classified as
rate-limited (`"429" in str(e)[:20]`, loop continues), any other
`ClientError` (loop breaks), or any other exception (loop breaks). -/
inductive ChatOutcome where
  | success (raw : Str)
  | rateLimited
  | clientErrorOther
  | exceptionOther

/-- Did this attempt fail (not produce a response)? -/
def chatFails : ChatOutcome → Bool
  | .success _ => false
  | _ => true

/-- The model-fallback loop of `summarize_cluster`: first success is
parsed and returned; rate limits skip to the next model; any other
failure breaks to the extractive fallback `fb`. -/
def chainLoop (fb : Str × Str × Str) : List ChatOutcome → Str × Str × Str
  | [] => fb
  | .success raw :: _ => _parse_response raw
  | .rateLimited :: rest => chainLoop fb rest
  | .clientErrorOther :: _ => fb
  | .exceptionOther :: _ => fb

/-- The extractive fallback summary: the first description that is
non-empty and non-blank, stripped and truncated to 500 characters, else
the constant placeholder. -/
def fb_summary (c : Cluster) : Str :=
  ((c.descriptions.find? fun d => !d.isEmpty && !(strTrim d).isEmpty).map
    (fun d => (strTrim d).take 500)).getD "(요약 정보 없음)".toList

/-- summarizer.summarize_cluster, with the per-model call outcomes
supplied as a list aligned with `config.CHAT_MODEL_FALLBACKS`:
`fallback_title = cluster.titles[0] if cluster.titles else "시그널"`,
then the fallback chain. -/
def summarize_cluster (outcomes : List ChatOutcome) (c : Cluster) : Str × Str × Str :=
  chainLoop (c.titles.headD "시그널".toList, fb_summary c, []) outcomes

/-! ### stock_fetcher.py -/

/-- The `([^)]+)\)` part of the ticker regex: at the current position,
take the run of non-`)` characters; succeed when it is non-empty and a
closing `)` follows it. -/
def innerTicker (cs : Str) : Option Str :=
  let inner := cs.takeWhile (fun c => c != ')')
  if inner.isEmpty then none
  else if inner.length == cs.length then none
  else some inner

/-- The backtracking scan of `re.match(r"(.+?)\(([^)]+)\)", entry)`:
`accRev` holds the (reversed) characters the lazy group has consumed so
far; at each `(` try the inner group, on failure consume the `(` into
the name and continue. -/
def matchName : Str → Str → Option (Str × Str)
  | _, [] => none
  | accRev, '(' :: rest =>
    match innerTicker rest with
    | some inner => some (accRev.reverse, inner)
    | none => matchName ('(' :: accRev) rest
  | accRev, c :: rest => matchName (c :: accRev) rest

/-- `re.match(r"(.+?)\(([^)]+)\)", entry)`: the lazy group needs at
least one character, so the first character is always consumed. -/
def regexTicker : Str → Option (Str × Str)
  | [] => none
  | c :: rest => matchName [c] rest

/-- One iteration of the entry loop of `parse_tickers`: skip blank
entries; a regex match yields the stripped groups, otherwise the
stripped entry is used as both name and ticker. -/
def parseEntry (entry : Str) : Option (Str × Str) :=
  let e := strTrim entry
  if e.isEmpty then none
  else
    match regexTicker e with
    | some nt => some (strTrim nt.1, strTrim nt.2)
    | none => some (e, e)

/-- The sentinel values whose (lowercased) normalized form short-circuits
`parse_tickers` to the empty list. -/
def tickerSentinels : List Str := ["없음".toList, "none".toList, "-".toList, []]

/-- stock_fetcher.parse_tickers. -/
def parse_tickers (tickers_raw : Str) : List (Str × Str) :=
  if tickers_raw.isEmpty then []
  else if tickerSentinels.contains (strLower (rstripDot (strTrim tickers_raw))) then []
  else ((splitOnC ',' tickers_raw).filterMap parseEntry).take 4

/-! ## Scorer lemmas and claims C2, C3 -/

theorem authLoop_eq_ok (logf : ℚ → ℚ) (w1 w2 : ℚ) (l : List (ℤ × ℤ))
    (h : ∀ p ∈ l, 1 ≤ p.1) (t : ℚ) :
    authLoop logf w1 w2 t l = .ok (t + sumTerms logf w1 w2 l) := by
  induction l generalizing t with
  | nil => simp [authLoop, sumTerms]
  | cons p rest ih =>
    obtain ⟨S, V⟩ := p
    have hS : 1 ≤ S := h (S, V) (by simp)
    rw [authLoop, if_neg (by omega),
      ih (fun q hq => h q (List.mem_cons_of_mem _ hq)) _]
    simp [sumTerms, add_assoc]

theorem round_mono_rat {x y : ℚ} (h : x ≤ y) : round x ≤ round y := by
  rw [round_eq, round_eq]
  exact Int.floor_le_floor (by linarith)

theorem round6_mono {x y : ℚ} (h : x ≤ y) : round6 x ≤ round6 y := by
  unfold round6
  have h1 : round (x * 1000000) ≤ round (y * 1000000) := round_mono_rat (by linarith)
  have h2 : ((round (x * 1000000) : ℤ) : ℚ) ≤ ((round (y * 1000000) : ℤ) : ℚ) := by
    exact_mod_cast h1
  linarith

theorem round6_intCast (n : ℤ) : round6 (n : ℚ) = (n : ℚ) := by
  unfold round6
  rw [show ((n : ℚ) * 1000000) = ((n * 1000000 : ℤ) : ℚ) by push_cast; ring, round_intCast]
  push_cast
  field_simp

/-- C2 (amended): with w2 ≥ 0 and all audiences ≥ 1, `compute_authority`
is monotonically non-decreasing in the engagement (views) component of
any one pair, holding everything else fixed.  (The audience-size
monotonicity asserted by the claim fails; see the counterexample.) -/
theorem compute_authority_engagement_mono (logf : ℚ → ℚ) (w1 w2 : ℚ)
    (pre post : List (ℤ × ℤ)) (S V V' : ℤ)
    (hw2 : 0 ≤ w2) (hS : 1 ≤ S) (hV : V ≤ V')
    (hpre : ∀ p ∈ pre, 1 ≤ p.1) (hpost : ∀ p ∈ post, 1 ≤ p.1) :
    ∃ q q' : ℚ,
      compute_authority logf w1 w2 (pre ++ (S, V) :: post) = .ok q ∧
      compute_authority logf w1 w2 (pre ++ (S, V') :: post) = .ok q' ∧
      q ≤ q' := by
  have hall : ∀ W : ℤ, ∀ p ∈ pre ++ (S, W) :: post, (1 : ℤ) ≤ p.1 := by
    intro W p hp
    rcases List.mem_append.mp hp with hp | hp
    · exact hpre p hp
    · rcases List.mem_cons.mp hp with rfl | hp
      · exact hS
      · exact hpost p hp
  have hterm : authTerm logf w1 w2 S V ≤ authTerm logf w1 w2 S V' := by
    unfold authTerm
    have hS0 : (0 : ℚ) < (S : ℚ) := by exact_mod_cast (by omega : (0 : ℤ) < S)
    have hVq : ((V : ℚ)) ≤ (V' : ℚ) := by exact_mod_cast hV
    have hdiv : (V : ℚ) / (S : ℚ) ≤ (V' : ℚ) / (S : ℚ) := by
      exact (div_le_div_iff_of_pos_right hS0).mpr hVq
    have := mul_le_mul_of_nonneg_left hdiv hw2
    linarith
  have hsum : sumTerms logf w1 w2 (pre ++ (S, V) :: post)
      ≤ sumTerms logf w1 w2 (pre ++ (S, V') :: post) := by
    simp only [sumTerms, List.map_append, List.map_cons, List.sum_append, List.sum_cons]
    have := hterm
    linarith
  refine ⟨round6 (0 + sumTerms logf w1 w2 (pre ++ (S, V) :: post)),
          round6 (0 + sumTerms logf w1 w2 (pre ++ (S, V') :: post)), ?_, ?_, ?_⟩
  · rw [compute_authority, authLoop_eq_ok logf w1 w2 _ (hall V) 0]
    rfl
  · rw [compute_authority, authLoop_eq_ok logf w1 w2 _ (hall V') 0]
    rfl
  · exact round6_mono (by linarith)

/-- C2 witness: the engagement-monotonicity theorem applied at a concrete
input (one pair, audience 1, engagement raised from 0 to 1). -/
theorem compute_authority_engagement_mono_witness :
    ∃ q q' : ℚ,
      compute_authority (fun _ => 0) 0 1 ([] ++ (1, 0) :: []) = .ok q ∧
      compute_authority (fun _ => 0) 0 1 ([] ++ (1, 1) :: []) = .ok q' ∧
      q ≤ q' :=
  compute_authority_engagement_mono (fun _ => 0) 0 1 [] [] 1 0 1
    (by norm_num) le_rfl (by norm_num) (by simp) (by simp)

/-- C2 counterexample: with the admissible weights w1 = 0 ≥ 0, w2 = 1 ≥ 0,
raising the audience size of the single pair from 1 to 2 while holding
engagement fixed at 100 strictly lowers the score (100 to 50), so
`compute_authority` is not monotonically non-decreasing in the
audience-size component. -/
theorem compute_authority_audience_cex :
    compute_authority (fun _ => 0) 0 1 [(1, 100)] = .ok 100 ∧
    compute_authority (fun _ => 0) 0 1 [(2, 100)] = .ok 50 ∧
    ¬ ((100 : ℚ) ≤ 50) := by
  refine ⟨?_, ?_, by norm_num⟩
  · have h : authLoop (fun _ => (0 : ℚ)) 0 1 0 [(1, 100)] = .ok 100 := by
      norm_num [authLoop, authTerm]
    rw [compute_authority, h]
    show Except.ok (round6 100) = Except.ok 100
    rw [show ((100 : ℚ)) = (((100 : ℤ) : ℚ)) by norm_num, round6_intCast]
  · have h : authLoop (fun _ => (0 : ℚ)) 0 1 0 [(2, 100)] = .ok 50 := by
      norm_num [authLoop, authTerm]
    rw [compute_authority, h]
    show Except.ok (round6 50) = Except.ok 50
    rw [show ((50 : ℚ)) = (((50 : ℤ) : ℚ)) by norm_num, round6_intCast]

/-- C3: the authority scorer pipeline never raises on audience sizes ≤ 0:
`_fetch_link_channel_data` floors every subscriber count to 1
(`max(row["subscriber_count"], 1)`) and defaults absent views to 0, and
the resulting score equals the score of the data in which every
audience_size ≤ 0 is replaced by 1 (the spec-side description). -/
theorem compute_authority_floors_audience (logf : ℚ → ℚ) (w1 w2 : ℚ)
    (rows : List RawRow) :
    ∃ q : ℚ,
      compute_authority logf w1 w2 (rows.map fetch_pair) = .ok q ∧
      compute_authority logf w1 w2 (rows.map spec_floor_pair) = .ok q := by
  have hmaps : rows.map fetch_pair = rows.map spec_floor_pair := by
    apply List.map_congr_left
    intro r _
    unfold fetch_pair spec_floor_pair
    congr 1
    omega
  have hpos : ∀ p ∈ rows.map fetch_pair, (1 : ℤ) ≤ p.1 := by
    intro p hp
    obtain ⟨r, _, rfl⟩ := List.mem_map.mp hp
    unfold fetch_pair
    simp
  refine ⟨round6 (0 + sumTerms logf w1 w2 (rows.map fetch_pair)), ?_, ?_⟩
  · rw [compute_authority, authLoop_eq_ok logf w1 w2 _ hpos 0]
    rfl
  · rw [← hmaps, compute_authority, authLoop_eq_ok logf w1 w2 _ hpos 0]
    rfl

/-! ## Embedding fallback chain: claims C5, C6 -/

/-- C5: over a backend chain [A, B], a quota error (a `ClientError`
whose message contains 429/RESOURCE_EXHAUSTED and is not an auth error)
on A skips immediately to B: if B succeeds the chain returns B's vectors
without raising, and if B also hits a quota error the chain raises the
fatal "all backends exhausted" error. -/
theorem embed_quota_fallback (nA nB : Str) (msgA msgB : Str) (v : List (List ℚ))
    (hqA : is_quota_err msgA = true) (haA : is_auth_err msgA = false)
    (hqB : is_quota_err msgB = true) (haB : is_auth_err msgB = false) :
    _embed_texts [(nA, .clientError msgA), (nB, .success v)] = .ok v ∧
    _embed_texts [(nA, .clientError msgA), (nB, .clientError msgB)] =
      .error embed_fail_msg := by
  constructor
  · simp [_embed_texts, haA]
  · simp [_embed_texts, haA, haB]

/-- C5 witness: the theorem applied at concrete backend names and a
concrete 429 quota-exceeded message. -/
theorem embed_quota_fallback_witness :
    _embed_texts [("gemini-embedding-001".toList,
        .clientError "429 RESOURCE_EXHAUSTED: quota exceeded".toList),
      ("gemini-embedding-exp".toList, .success [[1, 0]])] = .ok [[1, 0]] ∧
    _embed_texts [("gemini-embedding-001".toList,
        .clientError "429 RESOURCE_EXHAUSTED: quota exceeded".toList),
      ("gemini-embedding-exp".toList,
        .clientError "429 RESOURCE_EXHAUSTED: quota exceeded".toList)] =
      .error embed_fail_msg :=
  embed_quota_fallback "gemini-embedding-001".toList "gemini-embedding-exp".toList
    "429 RESOURCE_EXHAUSTED: quota exceeded".toList
    "429 RESOURCE_EXHAUSTED: quota exceeded".toList [[1, 0]]
    (by decide) (by decide) (by decide) (by decide)

/-- C6 (amended): an authentication/permission `ClientError` (message
starting with 401/403) aborts the whole embedding chain immediately —
the `break` reaches the final `raise`, so no later backend, remote or
local, is tried; the chain raises the fatal exhaustion error regardless
of what follows it in the chain. -/
theorem embed_auth_aborts_chain (name msg : Str) (rest : List (Str × EmbedAttempt))
    (h : is_auth_err msg = true) :
    _embed_texts ((name, .clientError msg) :: rest) = .error embed_fail_msg := by
  simp [_embed_texts, h]

/-- C6 witness: the amended theorem applied to a 401 auth failure on the
remote Gemini backend followed by a local backend that would succeed. -/
theorem embed_auth_aborts_chain_witness :
    _embed_texts [("gemini-embedding-001".toList,
        .clientError "401 UNAUTHENTICATED: API key not valid".toList),
      ("paraphrase-multilingual-mpnet-base-v2".toList, .success [[1, 0]])] =
      .error embed_fail_msg :=
  embed_auth_aborts_chain "gemini-embedding-001".toList
    "401 UNAUTHENTICATED: API key not valid".toList
    [("paraphrase-multilingual-mpnet-base-v2".toList, .success [[1, 0]])]
    (by decide)

/-- C6 counterexample: the claim says a local backend configured after
the failing remote one may still be tried; in the code the 401/403
branch breaks straight to the `raise`, so with chain [gemini (401),
local (would succeed)] the call raises instead of returning the local
backend's vectors. -/
theorem embed_auth_local_not_tried_cex :
    _embed_texts [("gemini-embedding-001".toList,
        .clientError "401 UNAUTHENTICATED: API key not valid".toList),
      ("paraphrase-multilingual-mpnet-base-v2".toList, .success [[1, 0]])] =
      .error embed_fail_msg ∧
    _embed_texts [("gemini-embedding-001".toList,
        .clientError "401 UNAUTHENTICATED: API key not valid".toList),
      ("paraphrase-multilingual-mpnet-base-v2".toList, .success [[1, 0]])] ≠
      .ok [[1, 0]] := by
  refine ⟨rfl, ?_⟩
  intro h
  exact absurd h (by simp [_embed_texts, is_auth_err]; decide)

/-! ## Pipeline atomicity: claim C1 -/

/-- C1 (amended): `run_unified_clustering` clears the signal store (all
prior signal rows deleted, all link cluster assignments nulled) before
embedding; when the embedding fallback chain is exhausted the run aborts
with that exception and the store is left in the cleared state — prior
signal rows are NOT still present, the persisted signal set is empty
(a clear without a subsequent write). -/
theorem run_abort_leaves_cleared_state (st : DBState) (rows : List PostRow)
    (backends : List (Str × EmbedAttempt)) (labels : List Int) (top_n : ℕ)
    (e : Str) (hrows : rows ≠ [])
    (hembed : _embed_texts backends = .error e) :
    (run_unified_clustering st rows backends labels top_n).2 = .error e ∧
    (run_unified_clustering st rows backends labels top_n).1 = clear_signals st ∧
    (clear_signals st).signals = [] ∧
    ∀ l ∈ (clear_signals st).links, l.cluster_id = none := by
  have hne : rows.isEmpty = false := by
    cases rows with
    | nil => exact absurd rfl hrows
    | cons a as => rfl
  refine ⟨?_, ?_, rfl, ?_⟩
  · rw [run_unified_clustering]
    simp only [hne, Bool.false_eq_true, if_false, hembed]
  · rw [run_unified_clustering]
    simp only [hne, Bool.false_eq_true, if_false, hembed]
  · intro l hl
    simp only [clear_signals, List.mem_map] at hl
    obtain ⟨l0, _, rfl⟩ := hl
    rfl

/-- A prior signal row persisted by an earlier run. -/
def sigEx : SignalRow :=
  { cluster_id := "c-old".toList,
    representative_title := "old title".toList,
    summary_text := "old summary".toList,
    total_authority_score := 3,
    generated_at := "2024-01-01T00:00:00".toList }

/-- A link row carrying a prior cluster assignment. -/
def linkEx : LinkRow :=
  { url_hash := "h1".toList,
    original_url := "https://example.com/a".toList,
    title := some "t1".toList,
    description := some "d1".toList,
    authority_score := some 2,
    cluster_id := some "c-old".toList }

/-- A store state holding results of a previous successful run. -/
def stEx : DBState := { signals := [sigEx], links := [linkEx] }

/-- A post in the clustering window. -/
def postEx : PostRow :=
  { post_id := "ch1_10".toList,
    channel_id := "ch1".toList,
    content := "BTC ETF inflows surge".toList,
    views := some 100,
    authority_score := some 5,
    url_hashes_raw := some "h1".toList }

/-- An embedding chain whose every backend hits its quota. -/
def backendsEx : List (Str × EmbedAttempt) :=
  [("gemini-embedding-001".toList,
      .clientError "429 RESOURCE_EXHAUSTED: quota exceeded".toList)]

/-- C1 witness: the amended theorem applied to a concrete store with one
prior signal, one post and an exhausted embedding chain. -/
theorem run_abort_leaves_cleared_state_witness :
    (run_unified_clustering stEx [postEx] backendsEx [0] 15).2 =
      .error embed_fail_msg ∧
    (run_unified_clustering stEx [postEx] backendsEx [0] 15).1 = clear_signals stEx ∧
    (clear_signals stEx).signals = [] ∧
    ∀ l ∈ (clear_signals stEx).links, l.cluster_id = none :=
  run_abort_leaves_cleared_state stEx [postEx] backendsEx [0] 15
    embed_fail_msg (by simp) rfl

/-- C1 counterexample: in a run whose embedding chain raises the fatal
exhaustion error, the previously persisted signal row is NOT still
present afterwards — `clear_signals` already ran before embedding, so
the store's signal set is empty while the claim requires the prior rows
to survive such a run. -/
theorem run_abort_cex :
    stEx.signals ≠ [] ∧
    (run_unified_clustering stEx [postEx] backendsEx [0] 15).2 =
      .error embed_fail_msg ∧
    (run_unified_clustering stEx [postEx] backendsEx [0] 15).1.signals = [] := by
  refine ⟨?_, rfl, rfl⟩
  exact List.cons_ne_nil _ _

/-! ## Cluster aggregation lemmas -/

theorem lookupKey_updateMap_self (add : Cluster → α → Cluster)
    (m : List (Int × Cluster)) (k : Int) (x : α) :
    lookupKey (updateMap add m k x) k =
      some (add ((lookupKey m k).getD (mkCluster k)) x) := by
  induction m with
  | nil => simp [updateMap, lookupKey]
  | cons p rest ih =>
    obtain ⟨k0, c⟩ := p
    by_cases h : k0 = k
    · subst h
      simp [updateMap, lookupKey]
    · simp [updateMap, lookupKey, h, ih]

theorem lookupKey_updateMap_ne (add : Cluster → α → Cluster)
    (m : List (Int × Cluster)) (k k' : Int) (x : α) (h : k' ≠ k) :
    lookupKey (updateMap add m k x) k' = lookupKey m k' := by
  induction m with
  | nil => simp [updateMap, lookupKey, Ne.symm h]
  | cons p rest ih =>
    obtain ⟨k0, c⟩ := p
    by_cases h0 : k0 = k
    · subst h0
      simp [updateMap, lookupKey, Ne.symm h]
    · by_cases h1 : k0 = k'
      · subst h1
        simp [updateMap, lookupKey, h0]
      · simp [updateMap, lookupKey, h0, h1, ih]

theorem updateMap_keys (add : Cluster → α → Cluster)
    (m : List (Int × Cluster)) (k : Int) (x : α) :
    (updateMap add m k x).map Prod.fst =
      if k ∈ m.map Prod.fst then m.map Prod.fst else m.map Prod.fst ++ [k] := by
  induction m with
  | nil => simp [updateMap]
  | cons p rest ih =>
    obtain ⟨k0, c⟩ := p
    by_cases h : k0 = k
    · subst h
      simp [updateMap]
    · simp only [updateMap, if_neg h, List.map_cons, ih, List.mem_cons]
      by_cases h2 : k ∈ rest.map Prod.fst
      · simp [h2, Ne.symm h]
      · simp [h2, Ne.symm h]

theorem updateMap_keys_nodup (add : Cluster → α → Cluster)
    (m : List (Int × Cluster)) (k : Int) (x : α)
    (h : (m.map Prod.fst).Nodup) :
    ((updateMap add m k x).map Prod.fst).Nodup := by
  rw [updateMap_keys]
  by_cases hk : k ∈ m.map Prod.fst
  · simpa [hk] using h
  · simp only [hk, if_false]
    rw [List.nodup_append]
    refine ⟨h, List.nodup_singleton k, ?_⟩
    intro a ha hb
    rw [List.mem_singleton] at hb
    subst hb
    exact hk ha

theorem lookupKey_of_mem (m : List (Int × Cluster)) (k : Int) (c : Cluster)
    (hn : (m.map Prod.fst).Nodup) (h : (k, c) ∈ m) : lookupKey m k = some c := by
  induction m with
  | nil => cases h
  | cons p rest ih =>
    obtain ⟨k0, c0⟩ := p
    rcases List.mem_cons.mp h with heq | hmem
    · cases heq
      simp [lookupKey]
    · have hk : ¬ k0 = k := by
        intro hkk
        subst hkk
        have : k0 ∈ rest.map Prod.fst :=
          List.mem_map.mpr ⟨(k0, c), hmem, rfl⟩
        exact (List.nodup_cons.mp (by simpa using hn)).1 this
      have hn2 : (rest.map Prod.fst).Nodup := (List.nodup_cons.mp (by simpa using hn)).2
      simp [lookupKey, hk, ih hn2 hmem]

theorem mem_of_lookupKey (m : List (Int × Cluster)) (k : Int) (c : Cluster)
    (h : lookupKey m k = some c) : (k, c) ∈ m := by
  induction m with
  | nil => cases h
  | cons p rest ih =>
    obtain ⟨k0, c0⟩ := p
    by_cases h0 : k0 = k
    · subst h0
      simp only [lookupKey, if_pos rfl] at h
      cases h
      exact List.mem_cons_self _ _
    · simp only [lookupKey, if_neg h0] at h
      exact List.mem_cons_of_mem _ (ih h)

theorem buildMap_keys_nodup (add : Cluster → α → Cluster)
    (keyOf : ℕ → Int → Option Int) (ps : List (α × Int)) :
    ∀ (i : ℕ) (m : List (Int × Cluster)),
      (m.map Prod.fst).Nodup → ((buildMap add keyOf i ps m).map Prod.fst).Nodup := by
  induction ps with
  | nil => intro i m h; simpa [buildMap] using h
  | cons p rest ih =>
    intro i m h
    obtain ⟨x, lab⟩ := p
    cases hk : keyOf i lab with
    | none => simpa [buildMap, hk] using ih (i + 1) m h
    | some k =>
      simpa [buildMap, hk] using ih (i + 1) _ (updateMap_keys_nodup add m k x h)

theorem buildMap_lookup_some (add : Cluster → α → Cluster)
    (keyOf : ℕ → Int → Option Int) (ps : List (α × Int)) :
    ∀ (i : ℕ) (m : List (Int × Cluster)) (k : Int) (c : Cluster),
      lookupKey m k = some c →
      lookupKey (buildMap add keyOf i ps m) k =
        some ((assigned keyOf i ps k).foldl add c) := by
  induction ps with
  | nil => intro i m k c h; simpa [buildMap, assigned] using h
  | cons p rest ih =>
    intro i m k c h
    obtain ⟨x, lab⟩ := p
    cases hk : keyOf i lab with
    | none =>
      simpa [buildMap, hk, assigned] using ih (i + 1) m k c h
    | some k0 =>
      by_cases hkk : k0 = k
      · subst hkk
        have h1 : lookupKey (updateMap add m k0 x) k0 = some (add c x) := by
          rw [lookupKey_updateMap_self, h]
          rfl
        have h2 := ih (i + 1) (updateMap add m k0 x) k0 (add c x) h1
        simpa [buildMap, hk, assigned] using h2
      · have h1 : lookupKey (updateMap add m k0 x) k = some c := by
          rw [lookupKey_updateMap_ne add m k0 k x (Ne.symm hkk)]
          exact h
        simpa [buildMap, hk, assigned, hkk] using ih (i + 1) _ k c h1

theorem buildMap_lookup_new (add : Cluster → α → Cluster)
    (keyOf : ℕ → Int → Option Int) (ps : List (α × Int)) :
    ∀ (i : ℕ) (m : List (Int × Cluster)) (k : Int) (c : Cluster),
      lookupKey m k = none →
      lookupKey (buildMap add keyOf i ps m) k = some c →
      assigned keyOf i ps k ≠ [] ∧
        c = (assigned keyOf i ps k).foldl add (mkCluster k) := by
  induction ps with
  | nil =>
    intro i m k c h hs
    rw [buildMap, h] at hs
    cases hs
  | cons p rest ih =>
    intro i m k c h hs
    obtain ⟨x, lab⟩ := p
    cases hk : keyOf i lab with
    | none =>
      have hs2 : lookupKey (buildMap add keyOf (i + 1) rest m) k = some c := by
        simpa [buildMap, hk] using hs
      have hres := ih (i + 1) m k c h hs2
      simpa [assigned, hk] using hres
    | some k0 =>
      by_cases hkk : k0 = k
      · subst hkk
        have h1 : lookupKey (updateMap add m k0 x) k0 = some (add (mkCluster k0) x) := by
          rw [lookupKey_updateMap_self, h]
          rfl
        have h2 := buildMap_lookup_some add keyOf rest (i + 1)
          (updateMap add m k0 x) k0 (add (mkCluster k0) x) h1
        have hs2 : lookupKey (buildMap add keyOf (i + 1) rest (updateMap add m k0 x)) k0
            = some c := by
          simpa [buildMap, hk] using hs
        rw [hs2] at h2
        refine ⟨by simp [assigned, hk], ?_⟩
        simpa [assigned, hk] using Option.some.inj h2
      · have h1 : lookupKey (updateMap add m k0 x) k = none := by
          rw [lookupKey_updateMap_ne add m k0 k x (Ne.symm hkk)]
          exact h
        have hs2 : lookupKey (buildMap add keyOf (i + 1) rest (updateMap add m k0 x)) k
            = some c := by
          simpa [buildMap, hk] using hs
        have hres := ih (i + 1) _ k c h1 hs2
        simpa [assigned, hk, hkk] using hres

/-- Every entry of the finished `cluster_map` is exactly the fold of the
items assigned to its key over the empty fresh cluster. -/
theorem clusterMap_mem_char (add : Cluster → α → Cluster)
    (keyOf : ℕ → Int → Option Int) (ps : List (α × Int)) (k : Int) (c : Cluster)
    (h : (k, c) ∈ buildMap add keyOf 0 ps []) :
    assigned keyOf 0 ps k ≠ [] ∧
    c = (assigned keyOf 0 ps k).foldl add (mkCluster k) := by
  have hn : ((buildMap add keyOf 0 ps []).map Prod.fst).Nodup :=
    buildMap_keys_nodup add keyOf ps 0 [] (by simp)
  have hl := lookupKey_of_mem _ _ _ hn h
  exact buildMap_lookup_new add keyOf ps 0 [] k c rfl hl

theorem foldl_addPost_post_ids (l : List PostRow) :
    ∀ c : Cluster, (l.foldl addPost c).post_ids = c.post_ids ++ l.map PostRow.post_id := by
  induction l with
  | nil => intro c; simp
  | cons r rest ih => intro c; simp [ih, addPost]

theorem foldl_addPost_total (l : List PostRow) :
    ∀ c : Cluster, (l.foldl addPost c).total_authority_score =
      c.total_authority_score + (l.map fun r => r.authority_score.getD 0).sum := by
  induction l with
  | nil => intro c; simp
  | cons r rest ih => intro c; simp [ih, addPost]; ring

theorem foldl_addLink_url_hashes (l : List LinkRow) :
    ∀ c : Cluster, (l.foldl addLink c).url_hashes = c.url_hashes ++ l.map LinkRow.url_hash := by
  induction l with
  | nil => intro c; simp
  | cons r rest ih => intro c; simp [ih, addLink]

theorem foldl_addLink_total (l : List LinkRow) :
    ∀ c : Cluster, (l.foldl addLink c).total_authority_score =
      c.total_authority_score + (l.map fun r => r.authority_score.getD 0).sum := by
  induction l with
  | nil => intro c; simp
  | cons r rest ih => intro c; simp [ih, addLink]; ring

theorem foldl_addLink_titles (l : List LinkRow) :
    ∀ c : Cluster, (l.foldl addLink c).titles =
      c.titles ++ l.map (fun r => r.title.getD []) := by
  induction l with
  | nil => intro c; simp
  | cons r rest ih => intro c; simp [ih, addLink]

theorem mergeSort_clusterGE_pairwise (l : List Cluster) :
    (l.mergeSort clusterGE).Pairwise
      (fun a b => b.total_authority_score ≤ a.total_authority_score) := by
  have h := @List.sorted_mergeSort Cluster clusterGE
    (fun a b c h1 h2 => by
      simp only [clusterGE, decide_eq_true_eq] at h1 h2 ⊢
      exact le_trans h2 h1)
    (fun a b => by
      simp only [clusterGE, Bool.or_eq_true, decide_eq_true_eq]
      exact le_total b.total_authority_score a.total_authority_score) l
  simpa [List.Sorted, clusterGE] using h

theorem mem_map_snd_of_mem_take_mergeSort (l : List (Int × Cluster)) (n : ℕ)
    (c : Cluster) (h : c ∈ ((l.map Prod.snd).mergeSort clusterGE).take n) :
    ∃ k : Int, (k, c) ∈ l := by
  have h1 : c ∈ (l.map Prod.snd).mergeSort clusterGE := List.take_subset n _ h
  have h2 : c ∈ l.map Prod.snd := (List.mergeSort_perm _ clusterGE).subset h1
  obtain ⟨⟨k, c'⟩, hm, heq⟩ := List.mem_map.mp h2
  exact ⟨k, by rwa [show c' = c from heq] at hm⟩

/-- C7: every clustering run (unified/post mode and link mode) returns at
most `top_n` clusters, sorted non-increasingly by
`total_authority_score`, and each returned cluster's
`total_authority_score` is the sum of its members' authority scores with
a missing score counted as 0 — the members being exactly the items the
aggregation loop assigned to the cluster's label key, as witnessed by
the cluster's recorded member-id list. -/
theorem clustering_topk_sorted_sum (rows : List PostRow) (labels : List Int)
    (links : List LinkRow) (labels2 : List Int) (top_n : ℕ) :
    (clusterPosts rows labels top_n).length ≤ top_n ∧
    (clusterPosts rows labels top_n).Pairwise
      (fun a b => b.total_authority_score ≤ a.total_authority_score) ∧
    (clusterPosts rows labels top_n).Forall (fun c => ∃ k : Int,
      c.post_ids = (assigned unifiedKey 0 (rows.zip labels) k).map PostRow.post_id ∧
      c.total_authority_score =
        ((assigned unifiedKey 0 (rows.zip labels) k).map
          (fun r => r.authority_score.getD 0)).sum) ∧
    (clusterLinks links labels2 top_n).length ≤ top_n ∧
    (clusterLinks links labels2 top_n).Pairwise
      (fun a b => b.total_authority_score ≤ a.total_authority_score) ∧
    (clusterLinks links labels2 top_n).Forall (fun c => ∃ k : Int,
      c.url_hashes = (assigned linkKey 0 (links.zip labels2) k).map LinkRow.url_hash ∧
      c.total_authority_score =
        ((assigned linkKey 0 (links.zip labels2) k).map
          (fun l => l.authority_score.getD 0)).sum) := by
  refine ⟨List.length_take_le _ _, ?_, ?_, List.length_take_le _ _, ?_, ?_⟩
  · exact (mergeSort_clusterGE_pairwise _).sublist (List.take_sublist _ _)
  · rw [List.forall_iff_forall_mem]
    intro c hc
    obtain ⟨k, hm⟩ := mem_map_snd_of_mem_take_mergeSort _ _ _ hc
    obtain ⟨-, rfl⟩ := clusterMap_mem_char addPost unifiedKey _ k c hm
    refine ⟨k, ?_, ?_⟩
    · rw [foldl_addPost_post_ids]
      rfl
    · rw [foldl_addPost_total]
      simp [mkCluster]
  · exact (mergeSort_clusterGE_pairwise _).sublist (List.take_sublist _ _)
  · rw [List.forall_iff_forall_mem]
    intro c hc
    obtain ⟨k, hm⟩ := mem_map_snd_of_mem_take_mergeSort _ _ _ hc
    obtain ⟨-, rfl⟩ := clusterMap_mem_char addLink linkKey _ k c hm
    refine ⟨k, ?_, ?_⟩
    · rw [foldl_addLink_url_hashes]
      rfl
    · rw [foldl_addLink_total]
      simp [mkCluster]

theorem mem_assigned_unified (ps : List (PostRow × Int)) :
    ∀ (i : ℕ) (k : Int) (x : PostRow), x ∈ assigned unifiedKey i ps k →
      (x, k) ∈ ps ∧ k ≠ -1 := by
  induction ps with
  | nil => intro i k x h; simp [assigned] at h
  | cons p rest ih =>
    intro i k x h
    obtain ⟨y, lab⟩ := p
    simp only [assigned] at h
    rcases List.mem_append.mp h with h1 | h1
    · by_cases hc : unifiedKey i lab = some k
      · rw [if_pos hc] at h1
        rw [List.mem_singleton] at h1
        subst h1
        unfold unifiedKey at hc
        by_cases hl : lab = -1
        · rw [if_pos hl] at hc
          cases hc
        · rw [if_neg hl] at hc
          obtain rfl := Option.some.inj hc
          exact ⟨List.mem_cons_self _ _, hl⟩
      · rw [if_neg hc] at h1
        cases h1
    · have hres := ih (i + 1) k x h1
      exact ⟨List.mem_cons_of_mem _ hres.1, hres.2⟩

theorem snd_eq_of_nodup_fst {β : Type} (ps : List (β × Int))
    (hn : (ps.map Prod.fst).Nodup) (a : β) (b b' : Int)
    (h1 : (a, b) ∈ ps) (h2 : (a, b') ∈ ps) : b = b' := by
  have heq := List.inj_on_of_nodup_map hn h1 h2 rfl
  exact congrArg Prod.snd heq

theorem assigned_linkKey_miss (ps : List (LinkRow × Int)) :
    ∀ (i : ℕ) (k : Int), (∀ p ∈ ps, -1 ≤ p.2) →
      -(i : Int) - 1000 < k → k < -1 → assigned linkKey i ps k = [] := by
  induction ps with
  | nil => intro i k _ _ _; rfl
  | cons p rest ih =>
    intro i k hlab h1 h2
    obtain ⟨x, lab⟩ := p
    have hl : -1 ≤ lab := hlab (x, lab) (List.mem_cons_self _ _)
    have hne : ¬ linkKey i lab = some k := by
      unfold linkKey
      intro hc
      have heq := Option.some.inj hc
      by_cases hX : lab = -1
      · rw [if_pos hX] at heq
        omega
      · rw [if_neg hX] at heq
        omega
    simp only [assigned, if_neg hne, List.nil_append]
    exact ih (i + 1) k (fun p hp => hlab p (List.mem_cons_of_mem _ hp))
      (by push_cast; omega) h2

theorem assigned_linkKey_noise (ps : List (LinkRow × Int)) :
    ∀ (i0 j : ℕ) (k : Int) (x : LinkRow), (∀ p ∈ ps, -1 ≤ p.2) →
      ps.get? j = some (x, -1) → k = -((i0 : Int) + (j : Int) + 1000) →
      assigned linkKey i0 ps k = [x] := by
  induction ps with
  | nil => intro i0 j k x _ h _; simp at h
  | cons p rest ih =>
    intro i0 j k x hlab hj hk
    obtain ⟨y, lab⟩ := p
    cases j with
    | zero =>
      simp only [List.get?] at hj
      obtain ⟨rfl, rfl⟩ : y = x ∧ lab = -1 := by
        have := Option.some.inj hj
        exact ⟨congrArg Prod.fst this, congrArg Prod.snd this⟩
      have hcond : linkKey i0 (-1) = some k := by
        unfold linkKey
        rw [if_pos rfl, hk]
        push_cast
        ring_nf
      simp only [assigned, if_pos hcond, List.singleton_append, List.cons.injEq, true_and]
      apply assigned_linkKey_miss rest (i0 + 1) k
        (fun p hp => hlab p (List.mem_cons_of_mem _ hp))
      · rw [hk]
        push_cast
        omega
      · rw [hk]
        omega
    | succ j2 =>
      simp only [List.get?] at hj
      have hl : -1 ≤ lab := hlab (y, lab) (List.mem_cons_self _ _)
      have hne : ¬ linkKey i0 lab = some k := by
        unfold linkKey
        intro hc
        have heq := Option.some.inj hc
        by_cases hX : lab = -1
        · rw [if_pos hX] at heq
          rw [hk] at heq
          push_cast at heq
          omega
        · rw [if_neg hX] at heq
          rw [hk] at heq
          push_cast at heq
          omega
      simp only [assigned, if_neg hne, List.nil_append]
      exact ih (i0 + 1) j2 k x (fun p hp => hlab p (List.mem_cons_of_mem _ hp)) hj
        (by rw [hk]; push_cast; ring)

theorem buildMap_lookup_none_assigned (add : Cluster → α → Cluster)
    (keyOf : ℕ → Int → Option Int) (ps : List (α × Int)) :
    ∀ (i : ℕ) (m : List (Int × Cluster)) (k : Int),
      lookupKey (buildMap add keyOf i ps m) k = none →
      assigned keyOf i ps k = [] := by
  induction ps with
  | nil => intro i m k _; rfl
  | cons p rest ih =>
    intro i m k h
    obtain ⟨x, lab⟩ := p
    cases hk : keyOf i lab with
    | none =>
      have h2 : lookupKey (buildMap add keyOf (i + 1) rest m) k = none := by
        simpa [buildMap, hk] using h
      simpa [assigned, hk] using ih (i + 1) m k h2
    | some k0 =>
      by_cases hkk : k0 = k
      · subst hkk
        exfalso
        have h1 : lookupKey (updateMap add m k0 x) k0 =
            some (add ((lookupKey m k0).getD (mkCluster k0)) x) :=
          lookupKey_updateMap_self add m k0 x
        have h2 := buildMap_lookup_some add keyOf rest (i + 1)
          (updateMap add m k0 x) k0 _ h1
        have h3 : lookupKey (buildMap add keyOf (i + 1) rest (updateMap add m k0 x)) k0
            = none := by
          simpa [buildMap, hk] using h
        rw [h3] at h2
        cases h2
      · have h2 : lookupKey (buildMap add keyOf (i + 1) rest (updateMap add m k0 x)) k
            = none := by
          simpa [buildMap, hk] using h
        simpa [assigned, hk, hkk] using ih (i + 1) _ k h2

/-- C8: noise policy per mode.  In unified/post mode, every item DBSCAN
labels as noise (−1) is excluded from every returned cluster.  In link
mode, each noise item instead becomes its own singleton cluster in the
aggregation map, containing exactly that one link (under its fresh
negative effective label), carrying exactly that link's title,
description and score. -/
theorem clustering_noise_policy (rows : List PostRow) (labels : List Int)
    (top_n : ℕ) (links : List LinkRow) (labels2 : List Int)
    (hn : (rows.map PostRow.post_id).Nodup)
    (hlen : labels.length = rows.length)
    (hlab2 : ∀ p ∈ links.zip labels2, -1 ≤ p.2) :
    (∀ c ∈ clusterPosts rows labels top_n, ∀ p ∈ rows.zip labels,
      p.2 = -1 → p.1.post_id ∉ c.post_ids) ∧
    (∀ (i : ℕ) (l : LinkRow), (links.zip labels2).get? i = some (l, -1) →
      ∃ c ∈ (buildMap addLink linkKey 0 (links.zip labels2) []).map Prod.snd,
        c.url_hashes = [l.url_hash] ∧ c.titles = [l.title.getD []] ∧
        c.descriptions = [l.description.getD []] ∧
        c.total_authority_score = l.authority_score.getD 0) := by
  constructor
  · intro c hc p hp hnoise hmem
    obtain ⟨k, hm⟩ := mem_map_snd_of_mem_take_mergeSort _ _ _ hc
    obtain ⟨-, rfl⟩ := clusterMap_mem_char addPost unifiedKey _ k c hm
    rw [foldl_addPost_post_ids] at hmem
    simp only [mkCluster, List.nil_append] at hmem
    obtain ⟨r2, hr2, hid⟩ := List.mem_map.mp hmem
    obtain ⟨hzip2, hkne⟩ := mem_assigned_unified _ 0 k r2 hr2
    obtain ⟨r, lab⟩ := p
    simp only at hnoise
    subst hnoise
    have hr2rows : r2 ∈ rows := (List.of_mem_zip hzip2).1
    have hrrows : r ∈ rows := (List.of_mem_zip hp).1
    have hreq : r2 = r := List.inj_on_of_nodup_map hn hr2rows hrrows hid
    subst hreq
    have hfst : ((rows.zip labels).map Prod.fst).Nodup := by
      rw [List.map_fst_zip rows labels (by omega)]
      exact hn.of_map PostRow.post_id
    have : k = -1 := snd_eq_of_nodup_fst _ hfst r2 k (-1) hzip2 hp
    exact hkne this
  · intro i l hget
    have hkey := assigned_linkKey_noise (links.zip labels2) 0 i
      (-((0 : Int) + (i : Int) + 1000)) l hlab2 hget (by ring)
    cases hfin : lookupKey (buildMap addLink linkKey 0 (links.zip labels2) [])
        (-((0 : Int) + (i : Int) + 1000)) with
    | none =>
      exfalso
      have := buildMap_lookup_none_assigned addLink linkKey _ 0 []
        (-((0 : Int) + (i : Int) + 1000)) hfin
      rw [hkey] at this
      cases this
    | some c =>
      obtain ⟨-, hc⟩ := buildMap_lookup_new addLink linkKey _ 0 []
        (-((0 : Int) + (i : Int) + 1000)) c rfl hfin
      rw [hkey] at hc
      refine ⟨c, List.mem_map.mpr ⟨(_, c), mem_of_lookupKey _ _ _ hfin, rfl⟩, ?_⟩
      subst hc
      simp [addLink, mkCluster]

/-- A second post with a distinct identifier, used as a concrete noise
item. -/
def postEx2 : PostRow :=
  { post_id := "ch2_5".toList,
    channel_id := "ch2".toList,
    content := "single unclustered post".toList,
    views := some 10,
    authority_score := some 1,
    url_hashes_raw := none }

/-- C8 witness: the noise-policy theorem applied to two posts (one
noise) and one noise link. -/
theorem clustering_noise_policy_witness :
    (∀ c ∈ clusterPosts [postEx, postEx2] [0, -1] 2,
      ∀ p ∈ [postEx, postEx2].zip [0, -1], p.2 = -1 → p.1.post_id ∉ c.post_ids) ∧
    (∀ (i : ℕ) (l : LinkRow), ([linkEx].zip [-1]).get? i = some (l, -1) →
      ∃ c ∈ (buildMap addLink linkKey 0 ([linkEx].zip [-1]) []).map Prod.snd,
        c.url_hashes = [l.url_hash] ∧ c.titles = [l.title.getD []] ∧
        c.descriptions = [l.description.getD []] ∧
        c.total_authority_score = l.authority_score.getD 0) :=
  clustering_noise_policy [postEx, postEx2] [0, -1] 2 [linkEx] [-1]
    (by decide) rfl (by decide)

/-! ## Summarization fallback: claim C4 -/

theorem chainLoop_all_fail (fb : Str × Str × Str) (outcomes : List ChatOutcome)
    (h : ∀ o ∈ outcomes, chatFails o = true) : chainLoop fb outcomes = fb := by
  induction outcomes with
  | nil => rfl
  | cons o rest ih =>
    cases o with
    | success raw =>
      exact absurd (h _ (List.mem_cons_self _ _)) (by simp [chatFails])
    | rateLimited =>
      exact ih (fun o ho => h o (List.mem_cons_of_mem _ ho))
    | clientErrorOther => rfl
    | exceptionOther => rfl

theorem isEmpty_false_of_ne_nil {β : Type} (l : List β) (h : l ≠ []) :
    l.isEmpty = false := by
  cases l with
  | nil => exact absurd rfl h
  | cons a t => rfl

theorem fb_summary_ne_nil (c : Cluster) : fb_summary c ≠ [] := by
  unfold fb_summary
  cases hf : c.descriptions.find? (fun d => !d.isEmpty && !(strTrim d).isEmpty) with
  | none =>
    simp only [Option.map_none', Option.getD_none]
    decide
  | some d =>
    have hp := List.find?_some hf
    simp only [Bool.and_eq_true, Bool.not_eq_true'] at hp
    simp only [Option.map_some', Option.getD_some]
    intro hcontra
    have hlen := congrArg List.length hcontra
    rw [List.length_take] at hlen
    cases hsd : strTrim d with
    | nil => rw [hsd] at hp; simp at hp
    | cons a t =>
      rw [hsd] at hlen
      simp only [List.length_cons, List.length_nil] at hlen
      omega

/-- C4 (amended): when every generative backend in the fallback chain
fails, `summarize_cluster` returns, without raising, the tuple whose
title is the cluster's first title when the cluster has any titles (this
may itself be the empty string) and the constant `시그널` otherwise (not
a text excerpt), whose summary is the first non-blank description
stripped and truncated to 500 characters or the constant
`(요약 정보 없음)` — the summary is never empty — and whose ticker field
is empty. -/
theorem summarize_cluster_all_fail (outcomes : List ChatOutcome) (c : Cluster)
    (h : ∀ o ∈ outcomes, chatFails o = true) :
    summarize_cluster outcomes c =
      (c.titles.headD "시그널".toList, fb_summary c, []) ∧
    fb_summary c ≠ [] :=
  ⟨chainLoop_all_fail _ outcomes h, fb_summary_ne_nil c⟩

/-- A concrete cluster with one title and one description. -/
def clusterEx : Cluster :=
  { cluster_id := "c-ex".toList,
    titles := ["ETF 승인 임박".toList],
    descriptions := [" 상세한 설명 텍스트 ".toList] }

/-- C4 witness: the all-backends-fail theorem applied to a concrete
cluster and a chain that rate-limits then hard-fails. -/
theorem summarize_cluster_all_fail_witness :
    summarize_cluster [ChatOutcome.rateLimited, ChatOutcome.clientErrorOther] clusterEx =
      (clusterEx.titles.headD "시그널".toList, fb_summary clusterEx, []) ∧
    fb_summary clusterEx ≠ [] :=
  summarize_cluster_all_fail [ChatOutcome.rateLimited, ChatOutcome.clientErrorOther]
    clusterEx (by decide)

/-- A cluster whose first (and only) title is the empty string, as
produced by the unified clusterer for a link row with an empty stored
title (`meta[h]["title"] or ""`). -/
def cexCluster : Cluster :=
  { cluster_id := "c-cex".toList,
    titles := [[]],
    descriptions := [] }

/-- C4 counterexample: on a cluster whose first title is the empty
string and whose every backend fails, `summarize_cluster` returns the
empty string as the title — refuting the claim that the returned pair is
never an empty string. -/
theorem summarize_cluster_empty_title_cex :
    (∀ o ∈ [ChatOutcome.rateLimited], chatFails o = true) ∧
    (summarize_cluster [ChatOutcome.rateLimited] cexCluster).1 = [] :=
  ⟨by decide, rfl⟩

/-! ## Ticker parsing: claim C9 -/

theorem mem_take_or_len {β : Type} (l : List β) (b : β) (n : ℕ) (h : b ∈ l) :
    b ∈ l.take n ∨ (l.take n).length = n := by
  rcases le_or_lt l.length n with hle | hlt
  · left
    rwa [List.take_of_length_le hle]
  · right
    rw [List.length_take]
    omega

/-- C9: `parse_tickers` returns at most 4 pairs; it returns the empty
list whenever the input, stripped of surrounding whitespace and trailing
periods, is `없음`, `none`, `-` or empty; and every comma-separated
entry whose stripped text is non-blank and matches no parenthesized
ticker contributes the pair (entry, entry) — present in the result
unless the 4-pair cap is already full. -/
theorem parse_tickers_spec :
    (∀ s : Str, (parse_tickers s).length ≤ 4) ∧
    (∀ s : Str, rstripDot (strTrim s) ∈ tickerSentinels → parse_tickers s = []) ∧
    (∀ s entry : Str,
      tickerSentinels.contains (strLower (rstripDot (strTrim s))) = false →
      entry ∈ splitOnC ',' s → strTrim entry ≠ [] →
      regexTicker (strTrim entry) = none →
      (strTrim entry, strTrim entry) ∈ parse_tickers s ∨
        (parse_tickers s).length = 4) := by
  refine ⟨?_, ?_, ?_⟩
  · intro s
    unfold parse_tickers
    by_cases h1 : s.isEmpty = true
    · rw [if_pos h1]
      simp
    · rw [if_neg h1]
      by_cases h2 : tickerSentinels.contains (strLower (rstripDot (strTrim s))) = true
      · rw [if_pos h2]
        simp
      · rw [if_neg h2]
        exact List.length_take_le 4 _
  · intro s hs
    unfold parse_tickers
    by_cases h1 : s.isEmpty
    · rw [if_pos h1]
    · rw [if_neg h1]
      have hcon : tickerSentinels.contains (strLower (rstripDot (strTrim s))) = true := by
        simp only [tickerSentinels, List.mem_cons, List.not_mem_nil, or_false] at hs
        rcases hs with h | h | h | h <;> rw [h] <;> decide
      rw [if_pos hcon]
  · intro s entry hsent hentry htrim hre
    unfold parse_tickers
    by_cases h1 : s.isEmpty
    · exfalso
      have hnil : s = [] := by
        cases s with
        | nil => rfl
        | cons a t => simp [List.isEmpty] at h1
      subst hnil
      have : entry = [] := by
        have : splitOnC ',' ([] : Str) = [[]] := rfl
        rw [this] at hentry
        simpa using hentry
      subst this
      exact htrim rfl
    · rw [if_neg h1, if_neg (by rw [hsent]; exact Bool.false_ne_true)]
      have hIsEmpty : (strTrim entry).isEmpty = false := isEmpty_false_of_ne_nil _ htrim
      have hpair : parseEntry entry = some (strTrim entry, strTrim entry) := by
        unfold parseEntry
        simp only [hIsEmpty, Bool.false_eq_true, if_false, hre]
      have hin : (strTrim entry, strTrim entry) ∈ (splitOnC ',' s).filterMap parseEntry :=
        List.mem_filterMap.mpr ⟨entry, hentry, hpair⟩
      exact mem_take_or_len _ _ 4 hin

/-- C9 witness: the parsing theorem applied to concrete LLM output
strings: a two-entry list (second entry without a parenthesized ticker)
and the sentinel `없음.`. -/
theorem parse_tickers_spec_witness :
    (parse_tickers "삼성전자(005930.KS), NVDA".toList).length ≤ 4 ∧
    parse_tickers "없음.".toList = [] ∧
    ((strTrim " NVDA".toList, strTrim " NVDA".toList) ∈
        parse_tickers "삼성전자(005930.KS), NVDA".toList ∨
      (parse_tickers "삼성전자(005930.KS), NVDA".toList).length = 4) :=
  ⟨parse_tickers_spec.1 _,
   parse_tickers_spec.2.1 _ (by decide),
   parse_tickers_spec.2.2 "삼성전자(005930.KS), NVDA".toList " NVDA".toList
     (by decide) (by decide) (by decide) (by decide)⟩

/-! ## Top-percent link selection: claim C10 -/

theorem mergeSort_linkGE_pairwise (l : List LinkRow) :
    (l.mergeSort linkGE).Pairwise (fun a b => sqlKey b ≤ sqlKey a) := by
  have h := @List.sorted_mergeSort LinkRow linkGE
    (fun a b c h1 h2 => by
      simp only [linkGE, decide_eq_true_eq] at h1 h2 ⊢
      exact le_trans h2 h1)
    (fun a b => by
      simp only [linkGE, Bool.or_eq_true, decide_eq_true_eq]
      exact le_total (sqlKey b) (sqlKey a)) l
  simpa [List.Sorted, linkGE] using h

/-- C10: `get_top_links_by_score` returns only links with a non-null,
non-empty title, ordered by `authority_score` descending, and at most
`max(1, ⌊total·top_percent/100⌋)` of them where `total` counts all
links; in particular the limit is at least 1, so a single titled link is
never eliminated by the percentage cut. -/
theorem get_top_links_spec (links : List LinkRow) (top_percent : ℕ) :
    (∀ l ∈ get_top_links_by_score links top_percent,
      l.title ≠ none ∧ l.title ≠ some []) ∧
    (get_top_links_by_score links top_percent).Pairwise
      (fun a b => sqlKey b ≤ sqlKey a) ∧
    (get_top_links_by_score links top_percent).length ≤
      max 1 (links.length * top_percent / 100) ∧
    (∀ l : LinkRow, titled l = true →
      get_top_links_by_score [l] top_percent = [l]) := by
  refine ⟨?_, ?_, ?_, ?_⟩
  · intro l hl
    have h1 : l ∈ (links.filter titled).mergeSort linkGE := List.take_subset _ _ hl
    have h2 : l ∈ links.filter titled := (List.mergeSort_perm _ linkGE).subset h1
    have ht : titled l = true := (List.mem_filter.mp h2).2
    unfold titled at ht
    cases hti : l.title with
    | none => rw [hti] at ht; cases ht
    | some t =>
      rw [hti] at ht
      have ht2 : (!t.isEmpty) = true := ht
      refine ⟨by simp, ?_⟩
      intro hcontra
      have : t = [] := Option.some.inj hcontra
      subst this
      simp at ht2
  · exact (mergeSort_linkGE_pairwise _).sublist (List.take_sublist _ _)
  · exact List.length_take_le _ _
  · intro l hl
    unfold get_top_links_by_score
    have h1 : [l].filter titled = [l] := by simp [hl]
    rw [h1]
    have h2 : [l].mergeSort linkGE = [l] :=
      List.perm_singleton.mp (List.mergeSort_perm [l] linkGE)
    rw [h2]
    apply List.take_of_length_le
    simp

/-- C10 witness: the selection theorem applied to a single-link corpus
with the default 20-percent cut — the link survives. -/
theorem get_top_links_spec_witness :
    get_top_links_by_score [linkEx] 20 = [linkEx] :=
  (get_top_links_spec [] 20).2.2.2 linkEx (by decide)

end Tmsa
